import Mathlib

/-!
# Verification of `sd_dynamic_prompts/word_shuffle_generator.py`

A shallow embedding of the word-shuffle generator: the parenthesis-respecting
splitter `split_respecting_parentheses`, the non-greedy section substitution
performed by `re.sub` on the pattern `escape(start)(.*?)escape(end)`, the
per-section shuffle (`random.Random(seed)` followed by `rng.shuffle`), and the
`generate` wrapper.  Strings are embedded as lists of characters.
-/

/-- Strings of the Python source are embedded as lists of characters. -/
abbrev Str := List Char

/-- The characters Python's `str.strip()` removes (ASCII whitespace). -/
def pyIsSpace (c : Char) : Bool :=
  c = ' ' || c = '\t' || c = '\n' || c = '\r' || c = '\x0b' || c = '\x0c'

/-- Model of Python `str.strip()`: drop leading and trailing whitespace. -/
def pyStrip (s : Str) : Str :=
  ((s.dropWhile pyIsSpace).reverse.dropWhile pyIsSpace).reverse

/-- The loop of `split_respecting_parentheses`: scan the text character by
character keeping an integer parenthesis depth (`+1` on `(`, `-1` on `)`),
accumulating the current token (in reverse) and the finished tokens (in
reverse order).  A separator seen at depth 0 closes the current token, which
is stripped and dropped if empty; every other character is appended to the
current token. -/
def split_respecting_parentheses_go (separator : Char) (text : Str)
    (paren_depth : Int) (current_part : Str) (parts : List Str) : List Str :=
  match text with
  | [] =>
    let part := pyStrip current_part.reverse
    if part = [] then parts.reverse else (part :: parts).reverse
  | char :: rest =>
    if char = '(' then
      split_respecting_parentheses_go separator rest (paren_depth + 1)
        (char :: current_part) parts
    else if char = ')' then
      split_respecting_parentheses_go separator rest (paren_depth - 1)
        (char :: current_part) parts
    else if char = separator ∧ paren_depth = 0 then
      let part := pyStrip current_part.reverse
      split_respecting_parentheses_go separator rest paren_depth []
        (if part = [] then parts else part :: parts)
    else
      split_respecting_parentheses_go separator rest paren_depth
        (char :: current_part) parts

/-- `split_respecting_parentheses(text, separator)` from the source: split
`text` on `separator`, treating parenthesized content (to arbitrary nesting
depth) as a single unit; tokens are whitespace-stripped and empty tokens are
discarded. -/
def split_respecting_parentheses (text : Str) (separator : Char) : List Str :=
  split_respecting_parentheses_go separator text 0 [] []

example :
    split_respecting_parentheses "a, b, c".data ',' =
      ["a".data, "b".data, "c".data] := by decide

example :
    split_respecting_parentheses "a, ((b, c):1.5), d".data ',' =
      ["a".data, "((b, c):1.5)".data, "d".data] := by decide

example :
    split_respecting_parentheses "a,, b,,, c".data ',' =
      ["a".data, "b".data, "c".data] := by decide

/-! ## A declarative reference for the splitter

`rawSplit` cuts the text at exactly the separator occurrences seen at
parenthesis depth 0 (depth is an integer: it may go negative and splitting is
suppressed there exactly as at positive depth), keeping every other character
verbatim and performing no trimming and no discarding.  The implementation is
then proved equal to `rawSplit` followed by per-token stripping and dropping
of empty tokens, and `rawSplit` is proved to reconstruct the text. -/

/-- Depth contribution of one character. -/
def parenDelta (c : Char) : Int :=
  if c = '(' then 1 else if c = ')' then -1 else 0

/-- Total parenthesis-depth change over a string. -/
def parenSum (t : Str) : Int := (t.map parenDelta).sum

/-- Apply `f` to the first element of a list, if any. -/
def mapHead (f : Str → Str) : List Str → List Str
  | [] => []
  | p :: ps => f p :: ps

/-- Untrimmed splitting at depth-0 separators, starting at depth `d`. -/
def rawSplit (separator : Char) (d : Int) : Str → List Str
  | [] => [[]]
  | c :: rest =>
    if c = '(' then mapHead (c :: ·) (rawSplit separator (d + 1) rest)
    else if c = ')' then mapHead (c :: ·) (rawSplit separator (d - 1) rest)
    else if c = separator ∧ d = 0 then [] :: rawSplit separator d rest
    else mapHead (c :: ·) (rawSplit separator d rest)

/-- Drop the (already stripped) tokens that are empty. -/
def dropEmpty (l : List Str) : List Str := l.filter (fun p => !p.isEmpty)

/-- Join a token list back with a single separator character between tokens. -/
def joinSep (sep : Char) : List Str → Str
  | [] => []
  | [p] => p
  | p :: q :: ps => p ++ sep :: joinSep sep (q :: ps)

theorem parenSum_nil : parenSum [] = 0 := rfl

theorem parenSum_cons (c : Char) (t : Str) :
    parenSum (c :: t) = parenDelta c + parenSum t := by
  simp [parenSum]

theorem parenSum_append (a b : Str) :
    parenSum (a ++ b) = parenSum a + parenSum b := by
  simp [parenSum]

theorem parenSum_reverse (a : Str) : parenSum a.reverse = parenSum a := by
  simp [parenSum, List.sum_reverse]

theorem mapHead_mapHead (f g : Str → Str) (l : List Str) :
    mapHead f (mapHead g l) = mapHead (fun x => f (g x)) l := by
  cases l <;> rfl

theorem mapHead_congr {f g : Str → Str} (h : ∀ x, f x = g x) (l : List Str) :
    mapHead f l = mapHead g l := by
  cases l <;> simp [mapHead, h]

theorem mapHead_id (l : List Str) : mapHead (fun x => x) l = l := by
  cases l <;> rfl

theorem rawSplit_ne_nil (sep : Char) : ∀ (t : Str) (d : Int), rawSplit sep d t ≠ []
  | [], d => by simp [rawSplit]
  | c :: rest, d => by
    unfold rawSplit
    split
    · cases h : rawSplit sep (d + 1) rest with
      | nil => exact absurd h (rawSplit_ne_nil sep rest (d + 1))
      | cons p ps => simp [mapHead]
    · split
      · cases h : rawSplit sep (d - 1) rest with
        | nil => exact absurd h (rawSplit_ne_nil sep rest (d - 1))
        | cons p ps => simp [mapHead]
      · split
        · simp
        · cases h : rawSplit sep d rest with
          | nil => exact absurd h (rawSplit_ne_nil sep rest d)
          | cons p ps => simp [mapHead]

theorem dropEmpty_cons (p : Str) (l : List Str) :
    dropEmpty (p :: l) = if p = [] then dropEmpty l else p :: dropEmpty l := by
  by_cases h : p = []
  · subst h; simp [dropEmpty, List.filter]
  · cases p with
    | nil => exact absurd rfl h
    | cons c cs => simp [dropEmpty, List.filter, h]

/-- The implementation loop computes: already-collected parts, then the
stripped and non-empty tokens of the raw split (with the pending buffer
prepended to the first raw token). -/
theorem splitGo_eq (sep : Char) :
    ∀ (text : Str) (d : Int) (cur : Str) (parts : List Str),
      split_respecting_parentheses_go sep text d cur parts =
        parts.reverse ++
          dropEmpty ((mapHead (fun x => cur.reverse ++ x) (rawSplit sep d text)).map pyStrip)
  | [], d, cur, parts => by
    simp only [split_respecting_parentheses_go, rawSplit, mapHead, List.map,
      List.append_nil]
    rw [dropEmpty_cons]
    split
    · simp [dropEmpty]
    · simp [dropEmpty, List.reverse_cons]
  | c :: rest, d, cur, parts => by
    simp only [split_respecting_parentheses_go, rawSplit]
    by_cases h1 : c = '('
    · simp only [h1, if_true]
      rw [splitGo_eq sep rest (d + 1) ('(' :: cur) parts, mapHead_mapHead]
      exact congrArg (fun l => parts.reverse ++ dropEmpty (List.map pyStrip l))
        (mapHead_congr (fun x => by simp) _)
    · simp only [h1, if_false]
      by_cases h2 : c = ')'
      · simp only [h2, if_true]
        rw [splitGo_eq sep rest (d - 1) (')' :: cur) parts, mapHead_mapHead]
        exact congrArg (fun l => parts.reverse ++ dropEmpty (List.map pyStrip l))
          (mapHead_congr (fun x => by simp) _)
      · simp only [h2, if_false]
        by_cases h3 : c = sep ∧ d = 0
        · simp only [h3, and_self, if_true]
          rw [splitGo_eq sep rest 0 [] _]
          have hid : mapHead (fun x => List.reverse ([] : Str) ++ x)
              (rawSplit sep 0 rest) = rawSplit sep 0 rest := by
            have hstep : mapHead (fun x => List.reverse ([] : Str) ++ x)
                (rawSplit sep 0 rest) = mapHead (fun x => x) (rawSplit sep 0 rest) :=
              mapHead_congr (fun x => by simp) _
            rw [hstep, mapHead_id]
          rw [hid]
          simp only [mapHead, List.map, dropEmpty_cons, List.append_nil]
          by_cases hp : pyStrip cur.reverse = []
          · simp [hp]
          · simp [hp, List.reverse_cons, List.append_assoc]
        · simp only [h3, if_false]
          rw [splitGo_eq sep rest d (c :: cur) parts, mapHead_mapHead]
          exact congrArg (fun l => parts.reverse ++ dropEmpty (List.map pyStrip l))
            (mapHead_congr (fun x => by simp) _)

/-- The implementation equals: raw depth-0 split, strip every token, drop the
empty tokens. -/
theorem split_eq_rawSplit (text : Str) (sep : Char) :
    split_respecting_parentheses text sep =
      dropEmpty ((rawSplit sep 0 text).map pyStrip) := by
  rw [split_respecting_parentheses, splitGo_eq]
  have hid : mapHead (fun x => List.reverse ([] : Str) ++ x)
      (rawSplit sep 0 text) = rawSplit sep 0 text := by
    have hstep : mapHead (fun x => List.reverse ([] : Str) ++ x)
        (rawSplit sep 0 text) = mapHead (fun x => x) (rawSplit sep 0 text) :=
      mapHead_congr (fun x => by simp) _
    rw [hstep, mapHead_id]
  rw [hid]
  simp

/-- `rawSplit` loses exactly the depth-0 separator characters: interleaving
them back reconstructs the input verbatim. -/
theorem rawSplit_join (sep : Char) :
    ∀ (text : Str) (d : Int), joinSep sep (rawSplit sep d text) = text
  | [], d => rfl
  | c :: rest, d => by
    have join_mapHead : ∀ (l : List Str), l ≠ [] →
        joinSep sep (mapHead (c :: ·) l) = c :: joinSep sep l := by
      intro l hl
      match l with
      | [] => exact absurd rfl hl
      | [p] => rfl
      | p :: q :: ps => rfl
    unfold rawSplit
    split
    · next h1 =>
      rw [join_mapHead _ (rawSplit_ne_nil sep rest (d + 1)),
        rawSplit_join sep rest (d + 1)]
    · split
      · next h2 =>
        rw [join_mapHead _ (rawSplit_ne_nil sep rest (d - 1)),
          rawSplit_join sep rest (d - 1)]
      · split
        · next h3 =>
          have hne := rawSplit_ne_nil sep rest d
          match hS : rawSplit sep d rest with
          | [] => exact absurd hS hne
          | q :: ps =>
            have : joinSep sep ([] :: q :: ps) = sep :: joinSep sep (q :: ps) := rfl
            rw [this, ← hS, rawSplit_join sep rest d, h3.1]
        · rw [join_mapHead _ (rawSplit_ne_nil sep rest d),
            rawSplit_join sep rest d]

/-! ## Depth bookkeeping for the raw split -/

/-- `true` when, scanning `t` starting at depth `d`, no separator occurrence
is ever seen at depth 0 (the condition under which the splitter would cut). -/
def noTopSepFrom (sep : Char) (d : Int) : Str → Bool
  | [] => true
  | c :: rest =>
    if c = '(' then noTopSepFrom sep (d + 1) rest
    else if c = ')' then noTopSepFrom sep (d - 1) rest
    else if c = sep ∧ d = 0 then false
    else noTopSepFrom sep d rest

/-- Well-nested parentheses: the running depth never dips below zero and ends
at zero. -/
def wellNestedGo (d : Int) : Str → Bool
  | [] => d = 0
  | c :: rest =>
    if c = '(' then wellNestedGo (d + 1) rest
    else if c = ')' then decide (0 < d) && wellNestedGo (d - 1) rest
    else wellNestedGo d rest

/-- A string composed of balanced (well-nested) parentheses. -/
def wellNested (t : Str) : Bool := wellNestedGo 0 t

/-- Depth bookkeeping for a segment list: the first segment starts at depth
`d` and every cut happens at depth 0; `e` is the depth after the last
segment. -/
def segChain (d : Int) : List Str → Int → Prop
  | [], e => d = e
  | [p], e => d + parenSum p = e
  | p :: q :: ps, e => d + parenSum p = 0 ∧ segChain 0 (q :: ps) e

theorem wellNestedGo_sum : ∀ (t : Str) (d : Int), wellNestedGo d t = true → d + parenSum t = 0
  | [], d => by
    simp [wellNestedGo, parenSum_nil]
  | c :: rest, d => by
    unfold wellNestedGo
    split
    · next h =>
      intro hw
      have := wellNestedGo_sum rest (d + 1) hw
      rw [parenSum_cons, h]
      simp [parenDelta] at this ⊢
      omega
    · split
      · next h1 h2 =>
        intro hw
        rw [Bool.and_eq_true] at hw
        have := wellNestedGo_sum rest (d - 1) hw.2
        rw [parenSum_cons, h2]
        simp [parenDelta, h1] at this ⊢
        omega
      · next h1 h2 =>
        intro hw
        have := wellNestedGo_sum rest d hw
        rw [parenSum_cons]
        simp [parenDelta, h1, h2] at this ⊢
        omega

theorem wellNested_sum (t : Str) (h : wellNested t = true) : parenSum t = 0 := by
  have := wellNestedGo_sum t 0 h
  omega

/-- Every segment of the raw split is free of depth-0 separators (the head
segment scanned from the ambient depth, the later ones from depth 0). -/
theorem rawSplit_nts (sep : Char) :
    ∀ (text : Str) (d : Int) (p : Str) (ps : List Str),
      rawSplit sep d text = p :: ps →
      noTopSepFrom sep d p = true ∧ ∀ q ∈ ps, noTopSepFrom sep 0 q = true
  | [], d, p, ps => by
    intro h
    simp [rawSplit] at h
    rw [h.1, h.2] at *
    simp [noTopSepFrom]
  | c :: rest, d, p, ps => by
    unfold rawSplit
    split
    · next h1 =>
      subst h1
      match hS : rawSplit sep (d + 1) rest with
      | [] => exact absurd hS (rawSplit_ne_nil sep rest (d + 1))
      | p' :: ps' =>
        intro h
        simp only [mapHead] at h
        obtain ⟨hp, hps⟩ := List.cons.inj h
        obtain ⟨ih1, ih2⟩ := rawSplit_nts sep rest (d + 1) p' ps' hS
        subst hps
        refine ⟨?_, ih2⟩
        rw [← hp]
        simp [noTopSepFrom, ih1]
    · split
      · next h1 h2 =>
        subst h2
        match hS : rawSplit sep (d - 1) rest with
        | [] => exact absurd hS (rawSplit_ne_nil sep rest (d - 1))
        | p' :: ps' =>
          intro h
          simp only [mapHead] at h
          obtain ⟨hp, hps⟩ := List.cons.inj h
          obtain ⟨ih1, ih2⟩ := rawSplit_nts sep rest (d - 1) p' ps' hS
          subst hps
          refine ⟨?_, ih2⟩
          rw [← hp]
          simp [noTopSepFrom, h1, ih1]
      · split
        · next h1 h2 h3 =>
          intro h
          obtain ⟨hp, hps⟩ := List.cons.inj h
          refine ⟨by rw [← hp]; rfl, ?_⟩
          intro q hq
          rw [← hps] at hq
          match hS : rawSplit sep d rest with
          | [] => exact absurd hS (rawSplit_ne_nil sep rest d)
          | p' :: ps' =>
            obtain ⟨ih1, ih2⟩ := rawSplit_nts sep rest d p' ps' hS
            rw [hS] at hq
            rcases List.mem_cons.mp hq with hq1 | hq2
            · subst hq1
              rw [h3.2] at ih1
              exact ih1
            · exact ih2 q hq2
        · next h1 h2 h3 =>
          match hS : rawSplit sep d rest with
          | [] => exact absurd hS (rawSplit_ne_nil sep rest d)
          | p' :: ps' =>
            intro h
            simp only [mapHead] at h
            obtain ⟨hp, hps⟩ := List.cons.inj h
            obtain ⟨ih1, ih2⟩ := rawSplit_nts sep rest d p' ps' hS
            subst hps
            refine ⟨?_, ih2⟩
            rw [← hp]
            simp [noTopSepFrom, h1, h2, h3, ih1]

/-- Segments of the top-level raw split are all free of depth-0 separators. -/
theorem rawSplit_nts_all (sep : Char) (text : Str) :
    ∀ p ∈ rawSplit sep 0 text, noTopSepFrom sep 0 p = true := by
  intro p hp
  match hS : rawSplit sep 0 text with
  | [] => exact absurd hS (rawSplit_ne_nil sep text 0)
  | q :: ps =>
    obtain ⟨h1, h2⟩ := rawSplit_nts sep text 0 q ps hS
    rw [hS] at hp
    rcases List.mem_cons.mp hp with h | h
    · subst h; exact h1
    · exact h2 p h

theorem rawSplit_cons (sep : Char) (d : Int) (c : Char) (rest : Str) :
    rawSplit sep d (c :: rest) =
      if c = '(' then mapHead (c :: ·) (rawSplit sep (d + 1) rest)
      else if c = ')' then mapHead (c :: ·) (rawSplit sep (d - 1) rest)
      else if c = sep ∧ d = 0 then [] :: rawSplit sep d rest
      else mapHead (c :: ·) (rawSplit sep d rest) := rfl

theorem noTopSepFrom_cons (sep : Char) (d : Int) (c : Char) (rest : Str) :
    noTopSepFrom sep d (c :: rest) =
      if c = '(' then noTopSepFrom sep (d + 1) rest
      else if c = ')' then noTopSepFrom sep (d - 1) rest
      else if c = sep ∧ d = 0 then false
      else noTopSepFrom sep d rest := rfl

theorem parenDelta_eq_zero {c : Char} (h1 : c ≠ '(') (h2 : c ≠ ')') :
    parenDelta c = 0 := by
  simp [parenDelta, h1, h2]

theorem segChain_mapHead (c : Char) (d e : Int) :
    ∀ (S : List Str), S ≠ [] →
      (segChain d (mapHead (c :: ·) S) e ↔ segChain (d + parenDelta c) S e)
  | [], h => absurd rfl h
  | [p], _ => by
    simp only [mapHead, segChain, parenSum_cons]
    constructor <;> intro h <;> omega
  | p :: q :: ps, _ => by
    simp only [mapHead, segChain, parenSum_cons]
    constructor <;> intro h <;> exact ⟨by omega, h.2⟩

/-- The raw split's segments chain correctly: the head segment starts at the
ambient depth `d`, every cut occurs at depth 0, and the final depth is
`d + parenSum text`. -/
theorem rawSplit_segChain (sep : Char) :
    ∀ (text : Str) (d : Int), segChain d (rawSplit sep d text) (d + parenSum text)
  | [], d => by
    simp [rawSplit, segChain, parenSum_nil]
  | c :: rest, d => by
    rw [rawSplit_cons]
    by_cases h1 : c = '('
    · rw [if_pos h1, segChain_mapHead c d _ _ (rawSplit_ne_nil sep rest (d + 1))]
      have e1 : d + parenDelta c = d + 1 := by rw [h1]; rfl
      have e2 : d + parenSum (c :: rest) = d + 1 + parenSum rest := by
        rw [parenSum_cons, h1, show parenDelta '(' = 1 from rfl]; omega
      rw [e1, e2]
      exact rawSplit_segChain sep rest (d + 1)
    · rw [if_neg h1]
      by_cases h2 : c = ')'
      · rw [if_pos h2, segChain_mapHead c d _ _ (rawSplit_ne_nil sep rest (d - 1))]
        have e1 : d + parenDelta c = d - 1 := by rw [h2]; rfl
        have e2 : d + parenSum (c :: rest) = d - 1 + parenSum rest := by
          rw [parenSum_cons, h2, show parenDelta ')' = -1 from rfl]; omega
        rw [e1, e2]
        exact rawSplit_segChain sep rest (d - 1)
      · rw [if_neg h2]
        by_cases h3 : c = sep ∧ d = 0
        · rw [if_pos h3]
          obtain ⟨hc, hd0⟩ := h3
          subst hd0
          have e2 : (0 : Int) + parenSum (c :: rest) = 0 + parenSum rest := by
            rw [parenSum_cons, parenDelta_eq_zero h1 h2]; omega
          rw [e2]
          match hS : rawSplit sep 0 rest with
          | [] => exact absurd hS (rawSplit_ne_nil sep rest 0)
          | q :: ps =>
            have ih := rawSplit_segChain sep rest 0
            rw [hS] at ih
            exact ⟨by simp [parenSum_nil], ih⟩
        · rw [if_neg h3, segChain_mapHead c d _ _ (rawSplit_ne_nil sep rest d)]
          have e1 : d + parenDelta c = d := by rw [parenDelta_eq_zero h1 h2]; omega
          have e2 : d + parenSum (c :: rest) = d + parenSum rest := by
            rw [parenSum_cons, parenDelta_eq_zero h1 h2]; omega
          rw [e1, e2]
          exact rawSplit_segChain sep rest d

/-- In a chain that starts and ends at depth 0 every segment is balanced. -/
theorem segChain_all_zero :
    ∀ (S : List Str), segChain 0 S 0 → ∀ p ∈ S, parenSum p = 0
  | [], _, p, hp => absurd hp (List.not_mem_nil p)
  | [q], h, p, hp => by
    rcases List.mem_singleton.mp hp with rfl
    have h' : (0 : Int) + parenSum p = 0 := h
    omega
  | q :: r :: ps, h, p, hp => by
    rcases List.mem_cons.mp hp with h1 | h2
    · subst h1
      have h' : (0 : Int) + parenSum p = 0 := h.1
      omega
    · exact segChain_all_zero (r :: ps) h.2 p h2

/-- Scanning through a chunk with no depth-0 separator (relative to `d`)
prepends it to the first segment of the remainder's split. -/
theorem rawSplit_append (sep : Char) :
    ∀ (t : Str) (d : Int) (rest : Str), noTopSepFrom sep d t = true →
      rawSplit sep d (t ++ rest)
        = mapHead (fun x => t ++ x) (rawSplit sep (d + parenSum t) rest)
  | [], d, rest => by
    intro _
    rw [List.nil_append, parenSum_nil]
    have hstep : mapHead (fun x => ([] : Str) ++ x) (rawSplit sep (d + 0) rest)
        = mapHead (fun x => x) (rawSplit sep (d + 0) rest) :=
      mapHead_congr (fun x => by simp) _
    rw [hstep, mapHead_id]
    norm_num
  | c :: t, d, rest => by
    intro hnts
    rw [noTopSepFrom_cons] at hnts
    rw [List.cons_append, rawSplit_cons]
    by_cases h1 : c = '('
    · rw [if_pos h1] at hnts ⊢
      rw [rawSplit_append sep t (d + 1) rest hnts, mapHead_mapHead]
      have e : d + parenSum (c :: t) = d + 1 + parenSum t := by
        rw [parenSum_cons, h1, show parenDelta '(' = 1 from rfl]; omega
      rw [e]
      refine mapHead_congr (fun x => ?_) _
      rw [List.cons_append]
    · rw [if_neg h1] at hnts ⊢
      by_cases h2 : c = ')'
      · rw [if_pos h2] at hnts ⊢
        rw [rawSplit_append sep t (d - 1) rest hnts, mapHead_mapHead]
        have e : d + parenSum (c :: t) = d - 1 + parenSum t := by
          rw [parenSum_cons, h2, show parenDelta ')' = -1 from rfl]; omega
        rw [e]
        refine mapHead_congr (fun x => ?_) _
        rw [List.cons_append]
      · rw [if_neg h2] at hnts ⊢
        by_cases h3 : c = sep ∧ d = 0
        · rw [if_pos h3] at hnts
          exact absurd hnts (by simp)
        · rw [if_neg h3] at hnts ⊢
          rw [rawSplit_append sep t d rest hnts, mapHead_mapHead]
          have e : d + parenSum (c :: t) = d + parenSum t := by
            rw [parenSum_cons, parenDelta_eq_zero h1 h2]; omega
          rw [e]
          refine mapHead_congr (fun x => ?_) _
          rw [List.cons_append]

/-- `noTopSepFrom` over an append splits into the two halves, the second
scanned from the shifted depth. -/
theorem noTopSepFrom_append (sep : Char) :
    ∀ (a : Str) (d : Int) (b : Str),
      noTopSepFrom sep d (a ++ b)
        = (noTopSepFrom sep d a && noTopSepFrom sep (d + parenSum a) b)
  | [], d, b => by simp [noTopSepFrom, parenSum_nil]
  | c :: a, d, b => by
    rw [List.cons_append, noTopSepFrom_cons, noTopSepFrom_cons]
    by_cases h1 : c = '('
    · rw [if_pos h1, if_pos h1, noTopSepFrom_append sep a (d + 1) b]
      have e : d + parenSum (c :: a) = d + 1 + parenSum a := by
        rw [parenSum_cons, h1, show parenDelta '(' = 1 from rfl]; omega
      rw [e]
    · rw [if_neg h1, if_neg h1]
      by_cases h2 : c = ')'
      · rw [if_pos h2, if_pos h2, noTopSepFrom_append sep a (d - 1) b]
        have e : d + parenSum (c :: a) = d - 1 + parenSum a := by
          rw [parenSum_cons, h2, show parenDelta ')' = -1 from rfl]; omega
        rw [e]
      · rw [if_neg h2, if_neg h2]
        by_cases h3 : c = sep ∧ d = 0
        · rw [if_pos h3, if_pos h3]
          simp
        · rw [if_neg h3, if_neg h3, noTopSepFrom_append sep a d b]
          have e : d + parenSum (c :: a) = d + parenSum a := by
            rw [parenSum_cons, parenDelta_eq_zero h1 h2]; omega
          rw [e]

/-! ## Properties of `pyStrip` -/

theorem pyIsSpace_ne_paren {c : Char} (h : pyIsSpace c = true) :
    c ≠ '(' ∧ c ≠ ')' := by
  simp only [pyIsSpace, Bool.or_eq_true, decide_eq_true_eq] at h
  rcases h with ((((h | h) | h) | h) | h) | h <;> subst h <;> exact ⟨by decide, by decide⟩

theorem allSpace_parenSum {l : Str} (h : ∀ c ∈ l, pyIsSpace c = true) :
    parenSum l = 0 := by
  induction l with
  | nil => rfl
  | cons c t ih =>
    rw [parenSum_cons]
    have hc := pyIsSpace_ne_paren (h c (List.mem_cons_self c t))
    rw [parenDelta_eq_zero hc.1 hc.2, ih (fun x hx => h x (List.mem_cons_of_mem c hx))]
    omega

/-- Decomposition of the left strip: the stripped string is the dropWhile part
and the part stripped on the right is all whitespace. -/
theorem pyStrip_decomp (t : Str) :
    t.dropWhile pyIsSpace
      = pyStrip t ++ ((t.dropWhile pyIsSpace).reverse.takeWhile pyIsSpace).reverse := by
  conv_lhs => rw [← List.reverse_reverse (t.dropWhile pyIsSpace),
    ← List.takeWhile_append_dropWhile pyIsSpace ((t.dropWhile pyIsSpace).reverse)]
  rw [List.reverse_append]
  rfl

theorem pyStrip_parenSum (t : Str) : parenSum (pyStrip t) = parenSum t := by
  have h1 : parenSum t = parenSum (t.takeWhile pyIsSpace) + parenSum (t.dropWhile pyIsSpace) := by
    rw [← parenSum_append, List.takeWhile_append_dropWhile]
  have h2 : parenSum (t.takeWhile pyIsSpace) = 0 :=
    allSpace_parenSum (fun c hc => List.mem_takeWhile_imp hc)
  have h3 := pyStrip_decomp t
  have h4 : parenSum ((t.dropWhile pyIsSpace).reverse.takeWhile pyIsSpace).reverse = 0 := by
    refine allSpace_parenSum (fun c hc => ?_)
    exact List.mem_takeWhile_imp (List.mem_reverse.mp hc)
  have h5 : parenSum (t.dropWhile pyIsSpace)
      = parenSum (pyStrip t) + parenSum ((t.dropWhile pyIsSpace).reverse.takeWhile pyIsSpace).reverse := by
    rw [← parenSum_append, ← h3]
  omega

theorem noTopSepFrom_pyStrip {sep : Char} (t : Str)
    (d : Int) (h : noTopSepFrom sep d t = true) :
    noTopSepFrom sep d (pyStrip t) = true := by
  have h1 : noTopSepFrom sep d t
      = (noTopSepFrom sep d (t.takeWhile pyIsSpace)
          && noTopSepFrom sep (d + parenSum (t.takeWhile pyIsSpace)) (t.dropWhile pyIsSpace)) := by
    rw [← noTopSepFrom_append, List.takeWhile_append_dropWhile]
  have h2 : parenSum (t.takeWhile pyIsSpace) = 0 :=
    allSpace_parenSum (fun c hc => List.mem_takeWhile_imp hc)
  rw [h1, h2, add_zero, Bool.and_eq_true] at h
  have h3 : noTopSepFrom sep d (t.dropWhile pyIsSpace) = true := h.2
  rw [pyStrip_decomp t, noTopSepFrom_append, Bool.and_eq_true] at h3
  exact h3.1

theorem head?_dropWhile_not {p : Char → Bool} :
    ∀ (l : Str) (a : Char), (l.dropWhile p).head? = some a → p a = false
  | [], a => by intro h; simp [List.dropWhile] at h
  | c :: t, a => by
    intro h
    by_cases hc : p c
    · rw [List.dropWhile_cons_of_pos hc] at h
      exact head?_dropWhile_not t a h
    · rw [List.dropWhile_cons_of_neg hc] at h
      have hca : c = a := by simpa using h
      subst hca
      rw [Bool.not_eq_true] at hc
      exact hc

theorem dropWhile_eq_self_of_head {p : Char → Bool} (l : Str)
    (h : ∀ a, l.head? = some a → p a = false) : l.dropWhile p = l := by
  cases l with
  | nil => rfl
  | cons c t =>
    have := h c rfl
    rw [List.dropWhile_cons_of_neg (by simp [this])]

theorem getLast?_dropWhile {p : Char → Bool} (l : Str)
    (h : l.dropWhile p ≠ []) : (l.dropWhile p).getLast? = l.getLast? := by
  conv_rhs => rw [← List.takeWhile_append_dropWhile p l]
  rw [← List.head?_reverse, ← List.head?_reverse, List.reverse_append]
  cases hr : (l.dropWhile p).reverse with
  | nil => exact absurd (by simpa using hr) h
  | cons x xs => simp

/-- `pyStrip` is idempotent. -/
theorem pyStrip_pyStrip (t : Str) : pyStrip (pyStrip t) = pyStrip t := by
  by_cases hz : pyStrip t = []
  · rw [hz]; rfl
  · have hw : (t.dropWhile pyIsSpace).reverse.dropWhile pyIsSpace ≠ [] := by
      intro hcon
      apply hz
      unfold pyStrip
      rw [hcon]
      rfl
    have hstep1 : (pyStrip t).dropWhile pyIsSpace = pyStrip t := by
      refine dropWhile_eq_self_of_head _ (fun a ha => ?_)
      unfold pyStrip at ha
      rw [List.head?_reverse] at ha
      rw [getLast?_dropWhile _ hw, List.getLast?_reverse] at ha
      exact head?_dropWhile_not _ a ha
    have hstep2 : (pyStrip t).reverse.dropWhile pyIsSpace = (pyStrip t).reverse := by
      refine dropWhile_eq_self_of_head _ (fun a ha => ?_)
      unfold pyStrip at ha
      rw [List.reverse_reverse] at ha
      exact head?_dropWhile_not _ a ha
    show (((pyStrip t).dropWhile pyIsSpace).reverse.dropWhile pyIsSpace).reverse = pyStrip t
    rw [hstep1, hstep2, List.reverse_reverse]

/-- Stripping ignores a leading space. -/
theorem pyStrip_cons_space (t : Str) : pyStrip (' ' :: t) = pyStrip t := by
  show (((' ' :: t).dropWhile pyIsSpace).reverse.dropWhile pyIsSpace).reverse = _
  rw [List.dropWhile_cons_of_pos (by decide)]
  rfl

/-! ## Rejoining tokens: `(separator + " ").join(parts)` -/

/-- Model of Python `(separator + " ").join(parts)`: the tokens joined with
the separator character followed by a single space. -/
def joinParts (sep : Char) : List Str → Str
  | [] => []
  | [p] => p
  | p :: q :: ps => p ++ sep :: ' ' :: joinParts sep (q :: ps)

/-- Every token produced by the splitter is stripped, non-empty, contains no
separator at its own depth 0, and (for well-nested input) is balanced. -/
theorem split_mem_props (text : Str) (sep : Char) :
    ∀ t ∈ split_respecting_parentheses text sep,
      pyStrip t = t ∧ t ≠ [] ∧ noTopSepFrom sep 0 t = true ∧
        (wellNested text = true → parenSum t = 0) := by
  intro t ht
  rw [split_eq_rawSplit] at ht
  unfold dropEmpty at ht
  obtain ⟨hmap, hne⟩ := List.mem_filter.mp ht
  obtain ⟨p, hpS, hpt⟩ := List.mem_map.mp hmap
  have htne : t ≠ [] := by
    cases t with
    | nil => simp at hne
    | cons a as => simp
  subst hpt
  refine ⟨pyStrip_pyStrip p, htne, ?_, ?_⟩
  · exact noTopSepFrom_pyStrip p 0 (rawSplit_nts_all sep text p hpS)
  · intro hwt
    have hchain := rawSplit_segChain sep text 0
    rw [wellNested_sum text hwt] at hchain
    have h0 : (0 : Int) + 0 = 0 := by norm_num
    rw [h0] at hchain
    have := segChain_all_zero _ hchain p hpS
    rw [pyStrip_parenSum]
    exact this

/-- Re-splitting the joined tokens, step 1: the raw split of the joined text
recovers the tokens (the second and later ones with the inserted space). -/
theorem rawSplit_joinParts (sep : Char) (hp : sep ≠ '(') (hq : sep ≠ ')')
    (hs : pyIsSpace sep = false) :
    ∀ (ts : List Str) (t : Str),
      (∀ x ∈ t :: ts, noTopSepFrom sep 0 x = true ∧ parenSum x = 0) →
      rawSplit sep 0 (joinParts sep (t :: ts)) = t :: ts.map (fun q => ' ' :: q)
  | [], t => by
    intro hall
    show rawSplit sep 0 t = [t]
    have hx := (hall t (List.mem_cons_self t [])).1
    rw [← List.append_nil t, rawSplit_append sep t 0 [] hx]
    simp [rawSplit, mapHead]
  | q :: ts', t => by
    intro hall
    have hx := hall t (List.mem_cons_self t _)
    show rawSplit sep 0 (t ++ sep :: ' ' :: joinParts sep (q :: ts'))
      = t :: (q :: ts').map (fun x => ' ' :: x)
    rw [rawSplit_append sep t 0 _ hx.1, hx.2]
    have h00 : (0 : Int) + 0 = 0 := by norm_num
    rw [h00, rawSplit_cons, if_neg hp, if_neg hq,
      if_pos (⟨rfl, rfl⟩ : sep = sep ∧ (0 : Int) = 0), rawSplit_cons]
    have hns : ¬ (' ' = sep ∧ (0 : Int) = 0) := by
      intro hcon
      rw [← hcon.1] at hs
      simp [pyIsSpace] at hs
    rw [if_neg (by decide : ¬ (' ' = '(')), if_neg (by decide : ¬ (' ' = ')')),
      if_neg hns]
    rw [rawSplit_joinParts sep hp hq hs ts' q
      (fun x hxm => hall x (List.mem_cons_of_mem t hxm))]
    simp [mapHead]

/-- Re-splitting the joined tokens, step 2: stripping and dropping empties
over the recovered (spaced) tokens gives back exactly the tokens. -/
theorem dropEmpty_strip_spaced :
    ∀ (ts : List Str), (∀ x ∈ ts, pyStrip x = x ∧ x ≠ []) →
      dropEmpty ((ts.map (fun q => ' ' :: q)).map pyStrip) = ts
  | [] => fun _ => rfl
  | q :: ts' => by
    intro hall
    have hq := hall q (List.mem_cons_self q ts')
    simp only [List.map]
    rw [pyStrip_cons_space, hq.1, dropEmpty_cons, if_neg hq.2]
    rw [dropEmpty_strip_spaced ts' (fun x hx => hall x (List.mem_cons_of_mem q hx))]

/-- C4: `split_respecting_parentheses` scans left to right with an integer
depth counter (`+1` on `(`, `-1` on `)`), cuts exactly at separators seen at
depth 0 (also when the counter went negative: splitting at nonzero depth,
positive or negative, is suppressed), keeps every other character verbatim
(first conjunct: the implementation is the trim-and-drop-empties
postprocessing of the verbatim raw split; second conjunct: the raw split
reconstructs the input, so no character is lost or altered and separators are
consumed only at the cuts), trims whitespace from each token, and discards
tokens that are empty after trimming.  Stated for every input string —
including unbalanced parentheses — and every separator; totality of the
function is the no-error guarantee. -/
theorem claim_C4 (text : Str) (sep : Char) :
    split_respecting_parentheses text sep
        = dropEmpty ((rawSplit sep 0 text).map pyStrip) ∧
      joinSep sep (rawSplit sep 0 text) = text :=
  ⟨split_eq_rawSplit text sep, rawSplit_join sep text 0⟩

/-- C5: for well-nested input (and a separator that is not a parenthesis or
whitespace character), no produced token contains the separator at the
token's own parenthesis depth 0, and joining the tokens with
`separator + " "` and re-splitting reproduces the same ordered token list. -/
theorem claim_C5 (text : Str) (sep : Char) (hw : wellNested text = true)
    (hp : sep ≠ '(') (hq : sep ≠ ')') (hs : pyIsSpace sep = false) :
    (∀ t ∈ split_respecting_parentheses text sep, noTopSepFrom sep 0 t = true) ∧
      split_respecting_parentheses
          (joinParts sep (split_respecting_parentheses text sep)) sep
        = split_respecting_parentheses text sep := by
  have hprops := split_mem_props text sep
  constructor
  · intro t ht
    exact (hprops t ht).2.2.1
  · cases hsplit : split_respecting_parentheses text sep with
    | nil => rfl
    | cons t ts =>
      rw [split_eq_rawSplit]
      rw [rawSplit_joinParts sep hp hq hs ts t (by
        intro x hx
        rw [← hsplit] at hx
        exact ⟨(hprops x hx).2.2.1, (hprops x hx).2.2.2 hw⟩)]
      simp only [List.map]
      have ht := hprops t (by rw [hsplit]; exact List.mem_cons_self t ts)
      rw [ht.1, dropEmpty_cons, if_neg ht.2.1]
      rw [dropEmpty_strip_spaced ts (by
        intro x hx
        have hx2 : x ∈ split_respecting_parentheses text sep := by
          rw [hsplit]; exact List.mem_cons_of_mem t hx
        exact ⟨(hprops x hx2).1, (hprops x hx2).2.1⟩)]

/-- Witness for C5 at the spec's nesting-integrity example. -/
theorem claim_C5_witness :
    (∀ t ∈ split_respecting_parentheses "a, ((b, c):1.5), d".data ',',
        noTopSepFrom ',' 0 t = true) ∧
      split_respecting_parentheses
          (joinParts ',' (split_respecting_parentheses "a, ((b, c):1.5), d".data ',')) ','
        = split_respecting_parentheses "a, ((b, c):1.5), d".data ',' :=
  claim_C5 "a, ((b, c):1.5), d".data ',' (by decide) (by decide) (by decide)
    (by decide)

/-! ## Model of `random.Random(seed)` and `rng.shuffle`

CPython's `random.Random(seed)` deterministically initialises a Mersenne
Twister from the seed, and `rng.shuffle` is the Fisher–Yates loop
`for i in reversed(range(1, len(x))): j = _randbelow(i + 1); swap x[i], x[j]`.
The twister core is modelled by a concrete deterministic 64-bit mixing
function: every claim below uses only that the generator state is a
deterministic function of the seed and that `randbelow s n < n`; no claim
depends on the distribution of the draws. -/

/-- One deterministic step of the modelled generator (64-bit LCG). -/
def rngStep (s : Nat) : Nat :=
  (s * 6364136223846793005 + 1442695040888963407) % (2 ^ 64)

/-- Model of `Random._randbelow(n)`: draw a value `< n` and the next state. -/
def randbelow (s : Nat) (n : Nat) : Nat × Nat :=
  let s2 := rngStep s
  ((s2 / 2 ^ 33) % n, s2)

/-- Model of `random.Random(seed)` for an integer seed: the initial generator
state, a deterministic function of the seed alone. -/
def pyRandomSeedState (seed : Int) : Nat := rngStep seed.natAbs

/-- Python's `x[i], x[j] = x[j], x[i]` on a list. -/
def listSwap (l : List α) (i j : Nat) : List α :=
  match l.get? i, l.get? j with
  | some a, some b => (l.set i b).set j a
  | _, _ => l

/-- The Fisher–Yates loop of `random.shuffle`, counting `i` down. -/
def fyGo : Nat → Nat → List α → List α × Nat
  | 0, s, l => (l, s)
  | i + 1, s, l =>
    let r := randbelow s (i + 2)
    fyGo i r.2 (listSwap l (i + 1) r.1)

/-- Model of `rng.shuffle(x)`: the shuffled list and the final state. -/
def pyShuffle (s : Nat) (l : List α) : List α × Nat := fyGo (l.length - 1) s l

/-- The index permutation `pyShuffle` applies to any list of length `n`. -/
def shuffledIdx (s : Nat) (n : Nat) : List Nat := (pyShuffle s (List.range n)).1

theorem cons_set_perm :
    ∀ (l : List α) (j : Nat) (x b : α), l.get? j = some b →
      (b :: l.set j x).Perm (x :: l)
  | [], j, x, b => by intro h; simp at h
  | a :: l, 0, x, b => by
    intro h
    have hab : a = b := by simpa using h
    subst hab
    show (a :: x :: l).Perm (x :: a :: l)
    exact List.Perm.swap x a l
  | a :: l, j + 1, x, b => by
    intro h
    rw [List.get?_cons_succ] at h
    show (b :: a :: l.set j x).Perm (x :: a :: l)
    exact (List.Perm.swap a b (l.set j x)).trans
      ((List.Perm.cons a (cons_set_perm l j x b h)).trans (List.Perm.swap x a l))

theorem listSwap_perm : ∀ (l : List α) (i j : Nat), (listSwap l i j).Perm l
  | [], i, j => by
    unfold listSwap
    simp
  | x :: l, 0, 0 => by
    unfold listSwap
    simp only [List.get?_cons_zero]
    show ((((x :: l).set 0 x).set 0 x) : List α).Perm (x :: l)
    rfl
  | x :: l, 0, j + 1 => by
    unfold listSwap
    simp only [List.get?_cons_zero, List.get?_cons_succ]
    cases hj : l.get? j with
    | none => exact List.Perm.refl _
    | some b =>
      show (b :: l.set j x).Perm (x :: l)
      exact cons_set_perm l j x b hj
  | x :: l, i + 1, 0 => by
    unfold listSwap
    simp only [List.get?_cons_zero, List.get?_cons_succ]
    cases hi : l.get? i with
    | none => exact List.Perm.refl _
    | some a =>
      show (a :: l.set i x).Perm (x :: l)
      exact cons_set_perm l i x a hi
  | x :: l, i + 1, j + 1 => by
    unfold listSwap
    simp only [List.get?_cons_succ]
    cases hi : l.get? i with
    | none => exact List.Perm.refl _
    | some a =>
      cases hj : l.get? j with
      | none => exact List.Perm.refl _
      | some b =>
        show (x :: (l.set i b).set j a).Perm (x :: l)
        refine List.Perm.cons x ?_
        have : listSwap l i j = (l.set i b).set j a := by
          unfold listSwap
          rw [hi, hj]
        rw [← this]
        exact listSwap_perm l i j

theorem fyGo_succ (s : Nat) (l : List α) (n : Nat) :
    fyGo (n + 1) s l
      = fyGo n (randbelow s (n + 2)).2 (listSwap l (n + 1) (randbelow s (n + 2)).1) := rfl

theorem fyGo_perm : ∀ (n : Nat) (s : Nat) (l : List α), ((fyGo n s l).1).Perm l
  | 0, s, l => List.Perm.refl l
  | n + 1, s, l => by
    rw [fyGo_succ]
    exact (fyGo_perm n _ _).trans (listSwap_perm l (n + 1) _)

/-- `pyShuffle` permutes its input. -/
theorem pyShuffle_perm (s : Nat) (l : List α) : ((pyShuffle s l).1).Perm l :=
  fyGo_perm (l.length - 1) s l

/-- `pyShuffle` is the identity on lists of length at most one. -/
theorem pyShuffle_short (s : Nat) (l : List α) (h : l.length ≤ 1) :
    (pyShuffle s l).1 = l := by
  unfold pyShuffle
  have h0 : l.length - 1 = 0 := by omega
  rw [h0]
  rfl

theorem listSwap_map (f : α → β) (l : List α) (i j : Nat) :
    listSwap (l.map f) i j = (listSwap l i j).map f := by
  unfold listSwap
  rw [List.get?_map, List.get?_map]
  cases hi : l.get? i with
  | none => rfl
  | some a =>
    cases hj : l.get? j with
    | none => rfl
    | some b =>
      show ((l.map f).set i (f b)).set j (f a) = ((l.set i b).set j a).map f
      rw [List.map_set, List.map_set]

theorem fyGo_map (f : α → β) :
    ∀ (n : Nat) (s : Nat) (l : List α),
      fyGo n s (l.map f) = (((fyGo n s l).1).map f, (fyGo n s l).2)
  | 0, s, l => rfl
  | n + 1, s, l => by
    rw [fyGo_succ, fyGo_succ, listSwap_map, fyGo_map f n]

/-- The elements of a list read back through `List.range`/`getD`. -/
theorem map_range_getD (d : α) :
    ∀ (l : List α), (List.range l.length).map (fun i => l.getD i d) = l
  | [] => rfl
  | a :: l => by
    show (List.range (l.length + 1)).map (fun i => (a :: l).getD i d) = a :: l
    rw [List.range_succ_eq_map, List.map_cons, List.map_map]
    have h1 : (a :: l).getD 0 d = a := rfl
    rw [h1]
    have h2 : ((fun i => (a :: l).getD i d) ∘ Nat.succ) = fun i => l.getD i d := by
      funext i
      rfl
    rw [h2, map_range_getD d l]

/-- `pyShuffle` acts on any list through the index permutation `shuffledIdx`
determined by the seed state and the length alone. -/
theorem pyShuffle_via_idx (d : α) (s : Nat) (l : List α) :
    (pyShuffle s l).1 = (shuffledIdx s l.length).map (fun i => l.getD i d) := by
  conv_lhs => rw [← map_range_getD d l]
  show (fyGo (((List.range l.length).map (fun i => l.getD i d)).length - 1) s
      ((List.range l.length).map (fun i => l.getD i d))).1 = _
  rw [List.length_map, fyGo_map, List.length_range]
  unfold shuffledIdx pyShuffle
  rw [List.length_range]

/-! ## Model of `re.sub` on `escape(start) (.*?) escape(end)` with `DOTALL`

For literal (escaped) markers the non-greedy, multiline pattern matches, at
the leftmost position where the start marker occurs, the shortest content
followed by the end marker; `sub` replaces every non-overlapping match from
left to right and leaves everything else verbatim.  If a start marker is
found but no end marker follows anywhere, no match can begin at this or any
later position, so the remainder is emitted unchanged.  The scanner below
implements exactly that; it is driven by structural fuel (one unit per
character consumed) so that it evaluates by kernel reduction. -/

/-- `leadsWith pat text`: `text` begins with `pat`. -/
def leadsWith : Str → Str → Bool
  | [], _ => true
  | _ :: _, [] => false
  | a :: as, b :: bs => if a = b then leadsWith as bs else false

/-- Index of the leftmost occurrence of `pat` in `text`, if any. -/
def findSub (pat : Str) : Str → Option Nat
  | [] => if leadsWith pat [] then some 0 else none
  | c :: rest =>
    if leadsWith pat (c :: rest) then some 0
    else (findSub pat rest).map (fun n => n + 1)

/-- Whether `pat` occurs anywhere in `text`. -/
def containsSub (pat : Str) (text : Str) : Bool := (findSub pat text).isSome

/-- The substitution scanner.  At each position: if the start marker matches
and an end marker occurs later, replace the shortest span and continue after
it; if the start marker matches but no end marker follows, the remainder is
emitted verbatim; otherwise emit one character and continue.  A zero-width
match (both markers empty with empty content) consumes one character after
the replacement, as Python's `re.sub` does. -/
def substAllGo (start end_ : Str) (f : Str → Str) : Nat → Str → Str
  | 0, text => text
  | _ + 1, [] => if start = [] ∧ end_ = [] then f [] else []
  | fuel + 1, c :: rest =>
    if leadsWith start (c :: rest) then
      match findSub end_ ((c :: rest).drop start.length) with
      | some j =>
        if start.length + j + end_.length = 0 then
          f [] ++ c :: substAllGo start end_ f fuel rest
        else
          f (((c :: rest).drop start.length).take j) ++
            substAllGo start end_ f fuel
              (((c :: rest).drop start.length).drop (j + end_.length))
      | none => c :: rest
    else c :: substAllGo start end_ f fuel rest

/-- Model of `self._shuffle_pattern.sub(f, text)`. -/
def substAll (start end_ : Str) (f : Str → Str) (text : Str) : Str :=
  substAllGo start end_ f (text.length + 1) text

theorem substAllGo_stable (start end_ : Str) (f : Str → Str) :
    ∀ (f1 f2 : Nat) (text : Str), text.length < f1 → text.length < f2 →
      substAllGo start end_ f f1 text = substAllGo start end_ f f2 text
  | 0, f2, text => by omega
  | f1 + 1, 0, text => by omega
  | f1 + 1, f2 + 1, [] => by intros; rfl
  | f1 + 1, f2 + 1, c :: rest => by
    intro h1 h2
    simp only [List.length_cons] at h1 h2
    show (if leadsWith start (c :: rest) then _ else _)
      = (if leadsWith start (c :: rest) then _ else _)
    by_cases hl : leadsWith start (c :: rest)
    · rw [if_pos hl, if_pos hl]
      cases hfind : findSub end_ ((c :: rest).drop start.length) with
      | none => rfl
      | some j =>
        dsimp only
        by_cases hz : start.length + j + end_.length = 0
        · rw [if_pos hz, if_pos hz]
          rw [substAllGo_stable start end_ f f1 f2 rest (by omega) (by omega)]
        · rw [if_neg hz, if_neg hz]
          have hlen : (((c :: rest).drop start.length).drop (j + end_.length)).length < f1 ∧
              (((c :: rest).drop start.length).drop (j + end_.length)).length < f2 := by
            rw [List.length_drop, List.length_drop, List.length_cons]
            omega
          rw [substAllGo_stable start end_ f f1 f2 _ hlen.1 hlen.2]
    · rw [if_neg hl, if_neg hl]
      rw [substAllGo_stable start end_ f f1 f2 rest (by omega) (by omega)]

theorem substAll_nil (start end_ : Str) (f : Str → Str) :
    substAll start end_ f [] = if start = [] ∧ end_ = [] then f [] else [] := rfl

/-- One step of the substitution scanner on a non-empty text. -/
theorem substAll_cons (start end_ : Str) (f : Str → Str) (c : Char) (rest : Str) :
    substAll start end_ f (c :: rest) =
      if leadsWith start (c :: rest) then
        match findSub end_ ((c :: rest).drop start.length) with
        | some j =>
          if start.length + j + end_.length = 0 then
            f [] ++ c :: substAll start end_ f rest
          else
            f (((c :: rest).drop start.length).take j) ++
              substAll start end_ f
                (((c :: rest).drop start.length).drop (j + end_.length))
        | none => c :: rest
      else c :: substAll start end_ f rest := by
  show substAllGo start end_ f (rest.length + 1 + 1) (c :: rest) = _
  show (if leadsWith start (c :: rest) then _ else _) = _
  by_cases hl : leadsWith start (c :: rest)
  · rw [if_pos hl, if_pos hl]
    cases hfind : findSub end_ ((c :: rest).drop start.length) with
    | none => rfl
    | some j =>
      dsimp only
      by_cases hz : start.length + j + end_.length = 0
      · rw [if_pos hz, if_pos hz]
        rfl
      · rw [if_neg hz, if_neg hz]
        have hlen : (((c :: rest).drop start.length).drop (j + end_.length)).length
            < rest.length + 1 := by
          rw [List.length_drop, List.length_drop, List.length_cons]
          omega
        rw [substAllGo_stable start end_ f (rest.length + 1)
          ((((c :: rest).drop start.length).drop (j + end_.length)).length + 1)
          (((c :: rest).drop start.length).drop (j + end_.length)) hlen (by omega)]
        rfl
  · rw [if_neg hl, if_neg hl]
    rfl

theorem leadsWith_append_self : ∀ (l r : Str), leadsWith l (l ++ r) = true
  | [], r => rfl
  | a :: as, r => by
    show (if a = a then leadsWith as (as ++ r) else false) = true
    rw [if_pos rfl]
    exact leadsWith_append_self as r

theorem leadsWith_nil_iff (pat : Str) : leadsWith pat [] = true ↔ pat = [] := by
  cases pat with
  | nil => simp [leadsWith]
  | cons a as => simp [leadsWith]

theorem containsSub_cons_false {pat : Str} {c : Char} {rest : Str}
    (h : containsSub pat (c :: rest) = false) :
    leadsWith pat (c :: rest) = false ∧ containsSub pat rest = false := by
  unfold containsSub at h ⊢
  unfold findSub at h
  by_cases hl : leadsWith pat (c :: rest)
  · rw [if_pos hl] at h
    simp at h
  · rw [if_neg hl] at h
    refine ⟨by simpa using hl, ?_⟩
    cases hf : findSub pat rest with
    | none => rfl
    | some k =>
      rw [hf] at h
      simp at h

/-- If the start marker occurs nowhere in the text, the substitution leaves
the text unchanged byte for byte. -/
theorem substAll_no_start (start end_ : Str) (f : Str → Str) :
    ∀ (text : Str), containsSub start text = false →
      substAll start end_ f text = text
  | [] => by
    intro h
    rw [substAll_nil]
    rw [if_neg]
    intro hcon
    rw [hcon.1] at h
    simp [containsSub, findSub, leadsWith] at h
  | c :: rest => by
    intro h
    obtain ⟨h1, h2⟩ := containsSub_cons_false h
    rw [substAll_cons, if_neg (by simp [h1]),
      substAll_no_start start end_ f rest h2]

theorem containsSub_drop {pat : Str} :
    ∀ (t : Str) (n : Nat), containsSub pat t = false →
      containsSub pat (t.drop n) = false
  | t, 0 => fun h => h
  | [], n + 1 => fun h => h
  | c :: rest, n + 1 => by
    intro h
    rw [List.drop_succ_cons]
    exact containsSub_drop rest n (containsSub_cons_false h).2

/-- If the end marker occurs nowhere in the text, the substitution leaves the
text unchanged (no section can close). -/
theorem substAll_no_end (start end_ : Str) (f : Str → Str) :
    ∀ (text : Str), containsSub end_ text = false →
      substAll start end_ f text = text
  | [] => by
    intro h
    rw [substAll_nil]
    rw [if_neg]
    intro hcon
    rw [hcon.2] at h
    simp [containsSub, findSub, leadsWith] at h
  | c :: rest => by
    intro h
    rw [substAll_cons]
    by_cases hl : leadsWith start (c :: rest)
    · rw [if_pos hl]
      have hdrop := containsSub_drop (c :: rest) start.length h
      unfold containsSub at hdrop
      cases hfind : findSub end_ ((c :: rest).drop start.length) with
      | none => rfl
      | some j =>
        rw [hfind] at hdrop
        simp at hdrop
    · rw [if_neg hl,
        substAll_no_end start end_ f rest (containsSub_cons_false h).2]

/-- The scanner passes over a prefix in which the start marker never
matches, emitting it verbatim. -/
theorem substAll_walk (start end_ : Str) (f : Str → Str) :
    ∀ (pre tail_ : Str),
      (∀ k, k < pre.length → leadsWith start ((pre ++ tail_).drop k) = false) →
      substAll start end_ f (pre ++ tail_) = pre ++ substAll start end_ f tail_
  | [], tail_ => by
    intro _
    rw [List.nil_append, List.nil_append]
  | c :: pre, tail_ => by
    intro h
    rw [List.cons_append, substAll_cons]
    have h0 := h 0 (by simp)
    rw [List.drop_zero, List.cons_append] at h0
    rw [if_neg (by simp [h0])]
    rw [substAll_walk start end_ f pre tail_ (fun k hk => by
      have hk2 := h (k + 1) (by simpa using Nat.succ_lt_succ hk)
      rwa [List.cons_append, List.drop_succ_cons] at hk2)]
    rw [List.cons_append]

/-- The scanner at a section: the start marker matches here and the leftmost
end-marker occurrence delimits the content `c`; the match is replaced by
`f c` and scanning continues after the end marker. -/
theorem substAll_section (start end_ : Str) (f : Str → Str) (c rest : Str)
    (hs : start ≠ [])
    (hj : findSub end_ (c ++ end_ ++ rest) = some c.length) :
    substAll start end_ f (start ++ c ++ end_ ++ rest)
      = f c ++ substAll start end_ f rest := by
  match hst : start with
  | s0 :: s' =>
    rw [← hst]
    have htext : start ++ c ++ end_ ++ rest = s0 :: (s' ++ (c ++ end_ ++ rest)) := by
      rw [hst]
      simp [List.append_assoc]
    rw [htext, substAll_cons]
    have hlead : leadsWith start (s0 :: (s' ++ (c ++ end_ ++ rest))) = true := by
      have : s0 :: (s' ++ (c ++ end_ ++ rest)) = start ++ (c ++ end_ ++ rest) := by
        rw [hst, List.cons_append]
      rw [this]
      exact leadsWith_append_self start _
    rw [if_pos hlead]
    have hdrop : (s0 :: (s' ++ (c ++ end_ ++ rest))).drop start.length
        = c ++ end_ ++ rest := by
      have : s0 :: (s' ++ (c ++ end_ ++ rest)) = start ++ (c ++ end_ ++ rest) := by
        rw [hst, List.cons_append]
      rw [this, List.drop_left]
    rw [hdrop]
    have hj2 : findSub end_ (c ++ end_ ++ rest) = some c.length := hj
    rw [hj2]
    dsimp only
    rw [if_neg (by rw [hst]; simp)]
    have htake : (c ++ end_ ++ rest).take c.length = c := by
      rw [List.append_assoc, List.take_left]
    have hdrop2 : (c ++ end_ ++ rest).drop (c.length + end_.length) = rest := by
      rw [List.append_assoc, ← List.length_append c end_, ← List.append_assoc,
        List.drop_left]
    rw [htake, hdrop2]

/-! ## The `special_syntax` collaborator and the generator -/

/-- Start of a protected fragment (a model-reference or auxiliary-network
tag). -/
def isFragHead (t : Str) : Bool :=
  leadsWith "<lora:".data t || leadsWith "<hypernet:".data t

/-- Fuel-driven scanner extracting protected fragments (one fuel unit per
character consumed). -/
def removeChunksGo : Nat → Str → Str × List Str
  | 0, text => (text, [])
  | _ + 1, [] => ([], [])
  | fuel + 1, c :: rest =>
    if isFragHead (c :: rest) then
      match findSub ['>'] (c :: rest) with
      | some j =>
        let r := removeChunksGo fuel ((c :: rest).drop (j + 1))
        (r.1, (c :: rest).take (j + 1) :: r.2)
      | none => (c :: rest, [])
    else
      let r := removeChunksGo fuel rest
      (c :: r.1, r.2)

/-- Modelled from the spec: the repository's `special_syntax` module
(`remove_a1111_special_syntax_chunks`, called by `_shuffle_prompt`) is only
imported here, its source is not part of this snapshot.  Per the spec's
Protected-Span Extractor contract, it scans the string for fragments matching
the protected grammar (model-reference / auxiliary-network tags such as
`<lora:...>` and `<hypernet:...>`), removes them from the string, and returns
the stripped string together with the removed fragments in extraction
order. -/
def remove_a1111_special_chunks (text : Str) : Str × List Str :=
  removeChunksGo (text.length + 1) text

/-- Modelled from the spec: the repository's `special_syntax` module
(`append_chunks`, called by `_shuffle_prompt`) is only imported here.  Per the
spec's Protected-Span Extractor contract, restore appends the fragments in
their original extraction order at the end of the string (with a joining
space); with no fragments the string is returned unchanged. -/
def append_chunks (text : Str) (chunks : List Str) : Str :=
  chunks.foldl (fun acc ch => acc ++ ' ' :: ch) text

/-- The configuration state stored by `WordShuffleGenerator.__init__`: the
default seed and the section delimiters/separator (the compiled regex is
determined by the two markers; the wrapped generator is passed separately to
`generate`). -/
structure WordShuffleGenerator where
  seed : Option Int
  shuffle_start : Str
  shuffle_end : Str
  separator : Char

/-- `WordShuffleGenerator.__init__`: stores the configuration and compiles
the pattern `escape(start)(.*?)escape(end)`.  The source performs no
validation of the delimiters and has no failure path (`re.escape` makes the
compile total), so construction always succeeds. -/
def WordShuffleGenerator.init (seed : Option Int) (shuffle_start shuffle_end : Str)
    (separator : Char) : WordShuffleGenerator :=
  ⟨seed, shuffle_start, shuffle_end, separator⟩

/-- The state of the fresh `random.Random(seed if seed is not None else
self._seed)` constructed inside `shuffle_section`: determined by the
per-prompt seed, else the default seed; only when both are `None` does
`random.Random(None)` draw on ambient process entropy, modelled by the
explicit `entropy` parameter. -/
def sectionSeed (entropy : Nat) (seed defaultSeed : Option Int) : Nat :=
  match seed with
  | some s => pyRandomSeedState s
  | none =>
    match defaultSeed with
    | some s => pyRandomSeedState s
    | none => entropy

/-- The token list produced inside `shuffle_section`: split the content, then
shuffle the parts with the freshly seeded generator. -/
def shuffle_section_parts (entropy : Nat) (seed defaultSeed : Option Int)
    (separator : Char) (content : Str) : List Str :=
  (pyShuffle (sectionSeed entropy seed defaultSeed)
    (split_respecting_parentheses content separator)).1

/-- `shuffle_section(match)` from `_shuffle_prompt`: split the section
content respecting parentheses, shuffle the parts with a new `Random`
instance, and join them back with `separator + " "`. -/
def shuffle_section (entropy : Nat) (seed defaultSeed : Option Int)
    (separator : Char) (content : Str) : Str :=
  joinParts separator (shuffle_section_parts entropy seed defaultSeed separator content)

/-- `WordShuffleGenerator._shuffle_prompt(prompt, seed)`: strip the protected
special-syntax chunks, rewrite every marked section via `shuffle_section`,
and re-append the chunks. -/
def WordShuffleGenerator.shufflePrompt (g : WordShuffleGenerator) (entropy : Nat)
    (prompt : Str) (seed : Option Int) : Str :=
  append_chunks
    (substAll g.shuffle_start g.shuffle_end
      (shuffle_section entropy seed g.seed g.separator)
      (remove_a1111_special_chunks prompt).1)
    (remove_a1111_special_chunks prompt).2

/-- `WordShuffleGenerator.generate`: the wrapped generator's prompts (passed
here as `prompts`), the `seeds` keyword argument (or `[None] * len(prompts)`
when absent), and `zip(prompts, seeds)` mapped through `_shuffle_prompt`. -/
def WordShuffleGenerator.generate (g : WordShuffleGenerator) (prompts : List Str)
    (seedsArg : Option (List (Option Int))) (entropy : Nat) : List Str :=
  let seeds := match seedsArg with
    | some s => s
    | none => List.replicate prompts.length none
  (prompts.zip seeds).map (fun ps => g.shufflePrompt entropy ps.1 ps.2)

example :
    (WordShuffleGenerator.init (some 0) "$[".data "]$".data ',').shufflePrompt 0
      "a normal prompt without shuffle sections".data none
      = "a normal prompt without shuffle sections".data := by decide

example :
    (WordShuffleGenerator.init (some 0) "$[".data "]$".data ',').shufflePrompt 0
      "test $[]$ end".data none = "test  end".data := by decide

/-- C1, counterexample: the claim as stated fails.  `_shuffle_prompt` first
strips protected special-syntax fragments and re-appends them at the end of
the string, so a marker-free prompt with a mid-string `<lora:...>` tag is not
returned byte-identically (the tag moves to the end), already at seed 0. -/
theorem claim_C1_counterexample :
    (WordShuffleGenerator.init none "$[".data "]$".data ',').shufflePrompt 0
        "x <lora:a:1> y".data (some 0)
      ≠ "x <lora:a:1> y".data := by decide

/-- C1, amended: for every prompt that contains no protected special-syntax
fragment (the extractor returns it unchanged with no chunks) and no
occurrence of the configured start marker, `_shuffle_prompt` returns output
byte-identical to the input, for every seed and every ambient entropy. -/
theorem claim_C1_identity (g : WordShuffleGenerator) (entropy : Nat)
    (prompt : Str) (seed : Option Int)
    (hfrag : remove_a1111_special_chunks prompt = (prompt, []))
    (hstart : containsSub g.shuffle_start prompt = false) :
    g.shufflePrompt entropy prompt seed = prompt := by
  unfold WordShuffleGenerator.shufflePrompt
  rw [hfrag]
  show append_chunks
    (substAll g.shuffle_start g.shuffle_end
      (shuffle_section entropy seed g.seed g.separator) prompt) [] = prompt
  rw [substAll_no_start _ _ _ prompt hstart]
  rfl

/-- Witness for the amended C1. -/
theorem claim_C1_witness :
    (WordShuffleGenerator.init none "$[".data "]$".data ',').shufflePrompt 7
        "a normal prompt without shuffle sections".data (some 3)
      = "a normal prompt without shuffle sections".data :=
  claim_C1_identity _ 7 _ (some 3) (by decide) (by decide)

/-- C2: with a non-`None` per-prompt seed, `_shuffle_prompt` is a pure
function of the configuration's markers/separator, the prompt, and that seed:
its output is independent of the ambient process entropy (the state any other
random draws in the process would have consumed) and of the generator's
default seed, because each `shuffle_section` call constructs and seeds its
own fresh `random.Random(seed)`.  In particular two invocations with the
identical seed and input agree regardless of process state or call order. -/
theorem claim_C2 (d1 d2 : Option Int) (startM endM : Str) (sep : Char)
    (e1 e2 : Nat) (prompt : Str) (s : Int) :
    (WordShuffleGenerator.init d1 startM endM sep).shufflePrompt e1 prompt (some s)
      = (WordShuffleGenerator.init d2 startM endM sep).shufflePrompt e2 prompt (some s) := rfl

/-- C3: the shuffled token list of a section is a permutation of the token
list obtained by splitting the content (same multiset, hence same length);
on empty and singleton token lists the shuffle is the identity. -/
theorem claim_C3 (entropy : Nat) (seed defaultSeed : Option Int) (sep : Char)
    (content : Str) :
    (shuffle_section_parts entropy seed defaultSeed sep content).Perm
        (split_respecting_parentheses content sep) ∧
      (shuffle_section_parts entropy seed defaultSeed sep content).length
        = (split_respecting_parentheses content sep).length ∧
      (split_respecting_parentheses content sep = [] →
        shuffle_section_parts entropy seed defaultSeed sep content = []) ∧
      (∀ t : Str, split_respecting_parentheses content sep = [t] →
        shuffle_section_parts entropy seed defaultSeed sep content = [t]) := by
  have hperm : (shuffle_section_parts entropy seed defaultSeed sep content).Perm
      (split_respecting_parentheses content sep) := pyShuffle_perm _ _
  refine ⟨hperm, hperm.length_eq, ?_, ?_⟩
  · intro h
    unfold shuffle_section_parts
    rw [h]
    rfl
  · intro t h
    unfold shuffle_section_parts
    rw [h]
    exact pyShuffle_short _ _ (by simp)

/-- Witness for C3. -/
theorem claim_C3_witness :
    (shuffle_section_parts 0 (some 42) none ',' " a ".data).Perm
        (split_respecting_parentheses " a ".data ',') ∧
      shuffle_section_parts 0 (some 42) none ',' " a ".data = ["a".data] :=
  ⟨(claim_C3 0 (some 42) none ',' " a ".data).1,
   (claim_C3 0 (some 42) none ',' " a ".data).2.2.2 "a".data (by decide)⟩

/-- C6, counterexample: the constructor performs no validation.  With start
and end markers both `"%%"` (identical), construction succeeds and the
configuration reaches per-candidate processing, which rewrites the marked
span (here normalizing `" a "` to `"a"`), contradicting "rejected at
construction time" and "never reach per-candidate processing". -/
theorem claim_C6_counterexample :
    (WordShuffleGenerator.init none "%%".data "%%".data ',').shufflePrompt 0
        "%% a %% t".data (some 3)
      = "a t".data := by decide

/-- C6, amended: `__init__` performs no validation and has no failure path:
empty or identical start/end markers are accepted, the configuration is
stored as given, and it does reach per-candidate processing — for every seed,
default seed and ambient entropy, the identical-marker configuration `"%%"`
rewrites a marked prompt. -/
theorem claim_C6_no_validation (defaultSeed seed : Option Int) (entropy : Nat) :
    (WordShuffleGenerator.init defaultSeed "%%".data "%%".data ',').seed = defaultSeed ∧
      (WordShuffleGenerator.init defaultSeed "%%".data "%%".data ',').shuffle_start
        = (WordShuffleGenerator.init defaultSeed "%%".data "%%".data ',').shuffle_end ∧
      (WordShuffleGenerator.init defaultSeed "%%".data "%%".data ',').shufflePrompt entropy
        "%% a %% t".data seed = "a t".data := by
  refine ⟨rfl, rfl, ?_⟩
  unfold WordShuffleGenerator.shufflePrompt
  have hfrag : remove_a1111_special_chunks "%% a %% t".data
      = ("%% a %% t".data, []) := by decide
  rw [hfrag]
  show append_chunks (substAll "%%".data "%%".data
      (shuffle_section entropy seed defaultSeed ',') "%% a %% t".data) [] = "a t".data
  have hdecomp : "%% a %% t".data
      = "%%".data ++ " a ".data ++ "%%".data ++ " t".data := by decide
  rw [hdecomp]
  rw [substAll_section "%%".data "%%".data _ " a ".data " t".data
    (by decide) (by decide)]
  rw [substAll_no_start _ _ _ " t".data (by decide)]
  have hsec : shuffle_section entropy seed defaultSeed ',' " a ".data = "a".data := by
    unfold shuffle_section shuffle_section_parts
    have hsplit : split_respecting_parentheses " a ".data ',' = ["a".data] := by decide
    rw [hsplit, pyShuffle_short _ _ (by simp)]
    rfl
  rw [hsec]
  decide

/-- C7: an unterminated section raises no error and passes through verbatim.
First conjunct: when the scanner reaches a start marker with no end-marker
occurrence anywhere after it, the whole remainder (the unmatched start marker
included) is emitted unchanged.  Second conjunct: a text containing no end
marker at all is left unchanged in full. -/
theorem claim_C7 (startM endM : Str) (entropy : Nat) (seed defaultSeed : Option Int)
    (sep : Char) (text : Str) :
    (startM ≠ [] → leadsWith startM text = true →
      containsSub endM (text.drop startM.length) = false →
      substAll startM endM (shuffle_section entropy seed defaultSeed sep) text = text) ∧
      (containsSub endM text = false →
        substAll startM endM (shuffle_section entropy seed defaultSeed sep) text = text) := by
  constructor
  · intro hs hl hend
    cases text with
    | nil =>
      rw [leadsWith_nil_iff] at hl
      exact absurd hl hs
    | cons c rest =>
      rw [substAll_cons, if_pos hl]
      cases hfind : findSub endM ((c :: rest).drop startM.length) with
      | none => rfl
      | some j =>
        unfold containsSub at hend
        rw [hfind] at hend
        simp at hend
  · intro hend
    exact substAll_no_end _ _ _ text hend

/-- Witness for C7: `"$[a, b"` has a start marker and no end marker. -/
theorem claim_C7_witness :
    substAll "$[".data "]$".data (shuffle_section 0 (some 1) none ',') "$[a, b".data
      = "$[a, b".data :=
  (claim_C7 "$[".data "]$".data 0 (some 1) none ',' "$[a, b".data).1
    (by decide) (by decide) (by decide)

theorem zip_eq_zip_take : ∀ (l1 : List α) (l2 : List β),
    l1.zip l2 = (l1.take l2.length).zip l2
  | [], l2 => by simp
  | a :: l1, [] => by simp
  | a :: l1, b :: l2 => by
    rw [List.length_cons, List.take_succ_cons, List.zip_cons_cons,
      List.zip_cons_cons, zip_eq_zip_take l1 l2]

/-- C8: when the `seeds` keyword is shorter than the wrapped generator's
prompt list, `zip` silently truncates: the result has the seeds list's
length and is exactly the per-prompt transformation of the first
`seeds.length` prompts (later prompts are dropped).  With no `seeds` keyword
the result has exactly the wrapped generator's length. -/
theorem claim_C8 (g : WordShuffleGenerator) (prompts : List Str)
    (seeds : List (Option Int)) (entropy : Nat)
    (h : seeds.length ≤ prompts.length) :
    (g.generate prompts (some seeds) entropy).length = seeds.length ∧
      g.generate prompts (some seeds) entropy
        = ((prompts.take seeds.length).zip seeds).map
            (fun ps => g.shufflePrompt entropy ps.1 ps.2) ∧
      (g.generate prompts none entropy).length = prompts.length := by
  unfold WordShuffleGenerator.generate
  dsimp only
  refine ⟨?_, ?_, ?_⟩
  · rw [List.length_map, List.length_zip]
    omega
  · rw [← zip_eq_zip_take]
  · rw [List.length_map, List.length_zip, List.length_replicate]
    omega

/-- Witness for C8: two prompts, one seed. -/
theorem claim_C8_witness :
    ((WordShuffleGenerator.init none "$[".data "]$".data ',').generate
        ["a".data, "b".data] (some [some 1]) 0).length = 1 ∧
      (WordShuffleGenerator.init none "$[".data "]$".data ',').generate
          ["a".data, "b".data] (some [some 1]) 0
        = (((["a".data, "b".data] : List Str).take 1).zip [some 1]).map
            (fun ps => (WordShuffleGenerator.init none "$[".data "]$".data ',').shufflePrompt
              0 ps.1 ps.2) ∧
      ((WordShuffleGenerator.init none "$[".data "]$".data ',').generate
          ["a".data, "b".data] none 0).length = 2 :=
  claim_C8 _ ["a".data, "b".data] [some 1] 0 (by decide)

/-- C9: every marked section in one prompt is shuffled by a freshly
constructed random source seeded with the same seed value, so the applied
index permutation is a function of the seed and the token count alone: two
sections whose contents split to equally long token lists are reordered by
the identical index list `shuffledIdx` (first two conjuncts), and the
rewrite substituted for a section is `shuffle_section` of its own content
only, with the rest of the prompt processed separately (third conjunct). -/
theorem claim_C9 (entropy : Nat) (s : Int) (defaultSeed : Option Int) (sep : Char)
    (c1 c2 : Str) (startM endM rest : Str)
    (hlen : (split_respecting_parentheses c1 sep).length
        = (split_respecting_parentheses c2 sep).length)
    (hs : startM ≠ [])
    (hj : findSub endM (c1 ++ endM ++ rest) = some c1.length) :
    shuffle_section_parts entropy (some s) defaultSeed sep c1
        = (shuffledIdx (pyRandomSeedState s)
              (split_respecting_parentheses c1 sep).length).map
            (fun i => (split_respecting_parentheses c1 sep).getD i []) ∧
      shuffle_section_parts entropy (some s) defaultSeed sep c2
        = (shuffledIdx (pyRandomSeedState s)
              (split_respecting_parentheses c1 sep).length).map
            (fun i => (split_respecting_parentheses c2 sep).getD i []) ∧
      substAll startM endM (shuffle_section entropy (some s) defaultSeed sep)
          (startM ++ c1 ++ endM ++ rest)
        = shuffle_section entropy (some s) defaultSeed sep c1
            ++ substAll startM endM (shuffle_section entropy (some s) defaultSeed sep) rest := by
  refine ⟨?_, ?_, ?_⟩
  · exact pyShuffle_via_idx [] _ _
  · have h2 := pyShuffle_via_idx ([] : Str) (pyRandomSeedState s)
      (split_respecting_parentheses c2 sep)
    rw [← hlen] at h2
    exact h2
  · exact substAll_section startM endM _ c1 rest hs hj

/-- Witness for C9: two sections of two tokens each. -/
theorem claim_C9_witness :
    shuffle_section_parts 0 (some 7) none ',' "a, b".data
        = (shuffledIdx (pyRandomSeedState 7)
              (split_respecting_parentheses "a, b".data ',').length).map
            (fun i => (split_respecting_parentheses "a, b".data ',').getD i []) ∧
      shuffle_section_parts 0 (some 7) none ',' "c, d".data
        = (shuffledIdx (pyRandomSeedState 7)
              (split_respecting_parentheses "a, b".data ',').length).map
            (fun i => (split_respecting_parentheses "c, d".data ',').getD i []) ∧
      substAll "$[".data "]$".data (shuffle_section 0 (some 7) none ',')
          ("$[".data ++ "a, b".data ++ "]$".data ++ " t".data)
        = shuffle_section 0 (some 7) none ',' "a, b".data
            ++ substAll "$[".data "]$".data (shuffle_section 0 (some 7) none ',') " t".data :=
  claim_C9 0 7 none ',' "a, b".data "c, d".data "$[".data "]$".data " t".data
    (by decide) (by decide) (by decide)

/-- C10: the section rewrite is trim-drop-join, not the identity.  First
conjunct: the rewrite equals the raw depth-0 split with every token
whitespace-trimmed and empty tokens dropped, shuffled, and rejoined with
`separator + " "`.  Second and third conjuncts: the single-token section
content `" a "` is rewritten to `"a"` (for every seed and entropy), which
differs from the original content.  Fourth conjunct: the text outside the
marked section (`pre` before it, `post` after it, containing no markers)
keeps its original spacing verbatim. -/
theorem claim_C10 (entropy : Nat) (seed defaultSeed : Option Int) (sep : Char)
    (content : Str) (startM endM pre post : Str)
    (hpre : ∀ k, k < pre.length →
      leadsWith startM ((pre ++ (startM ++ content ++ endM ++ post)).drop k) = false)
    (hs : startM ≠ [])
    (hj : findSub endM (content ++ endM ++ post) = some content.length)
    (hpost : containsSub startM post = false) :
    shuffle_section entropy seed defaultSeed sep content
        = joinParts sep ((pyShuffle (sectionSeed entropy seed defaultSeed)
            (dropEmpty ((rawSplit sep 0 content).map pyStrip))).1) ∧
      shuffle_section entropy seed defaultSeed ',' " a ".data = "a".data ∧
      shuffle_section entropy seed defaultSeed ',' " a ".data ≠ " a ".data ∧
      substAll startM endM (shuffle_section entropy seed defaultSeed sep)
          (pre ++ (startM ++ content ++ endM ++ post))
        = pre ++ (shuffle_section entropy seed defaultSeed sep content ++ post) := by
  have hsec : shuffle_section entropy seed defaultSeed ',' " a ".data = "a".data := by
    unfold shuffle_section shuffle_section_parts
    have hsplit : split_respecting_parentheses " a ".data ',' = ["a".data] := by decide
    rw [hsplit, pyShuffle_short _ _ (by simp)]
    rfl
  refine ⟨?_, hsec, ?_, ?_⟩
  · unfold shuffle_section shuffle_section_parts
    rw [split_eq_rawSplit]
  · rw [hsec]
    decide
  · rw [substAll_walk startM endM _ pre _ hpre,
      substAll_section startM endM _ content post hs hj,
      substAll_no_start _ _ _ post hpost]

/-- Witness for C10 on the prompt `"x $[ a ]$ y"`. -/
theorem claim_C10_witness :
    shuffle_section 0 (some 5) none ',' " a ".data
        = joinParts ',' ((pyShuffle (sectionSeed 0 (some 5) none)
            (dropEmpty ((rawSplit ',' 0 " a ".data).map pyStrip))).1) ∧
      shuffle_section 0 (some 5) none ',' " a ".data = "a".data ∧
      shuffle_section 0 (some 5) none ',' " a ".data ≠ " a ".data ∧
      substAll "$[".data "]$".data (shuffle_section 0 (some 5) none ',')
          ("x ".data ++ ("$[".data ++ " a ".data ++ "]$".data ++ " y".data))
        = "x ".data ++ (shuffle_section 0 (some 5) none ',' " a ".data ++ " y".data) :=
  claim_C10 0 (some 5) none ',' " a ".data "$[".data "]$".data "x ".data " y".data
    (by decide) (by decide) (by decide) (by decide)
